import Mathlib

/-!
Verification development for the college-rag-bot repository.

The vector store (`app/utils/vectorstore.py`, class `CollegeVectorStore`) is
embedded shallowly: the in-memory state (`self.index`, `self.metadata`,
`self.documents`) becomes the structure `Mem`, the three on-disk artifacts
become the structure `Disk`, and each Python method becomes a Lean function.
Python exceptions are modelled with `Except` / error components; `numpy`
float32 arithmetic is idealized as real arithmetic.  The FAISS flat L2 index
is modelled as the dimension together with the list of stored (normalized)
vectors; `IndexFlatL2.search` returns the k smallest squared-L2 distances in
ascending order (ties by ascending slot id) and pads with id -1 when k
exceeds the number of stored vectors, which is the behaviour the Python code
relies on.

The markdown chunking helpers (`app/utils/chunking.py`, class
`DocumentProcessor`) are embedded over `String` / `List Char`; the external
langchain text splitter is kept abstract (a function parameter), since only
the separator list passed to it and the metadata post-processing live in this
repository.
-/

namespace CollegeRag

/-- Metadata values: Python dict values that actually occur in the code are
strings, ints (chunk indices) and lists of strings (markdown section lists). -/
inductive MVal where
  | s (v : String)
  | n (v : Int)
  | l (v : List String)
deriving DecidableEq

/-- A langchain `Document`: page content plus a metadata dictionary, modelled
as an association list (lookup returns the first binding). -/
structure Document where
  page_content : String
  metadata : List (String × MVal)
deriving DecidableEq

/-- First-binding lookup in a metadata dictionary, with a default
(`dict.get(key, default)`). -/
def lookupMV (m : List (String × MVal)) (k : String) (dflt : MVal) : MVal :=
  (((m.find? (fun p => p.1 == k)).map Prod.snd)).getD dflt

/-- Optional first-binding lookup in a metadata dictionary. -/
def lookupMV? (m : List (String × MVal)) (k : String) : Option MVal :=
  (m.find? (fun p => p.1 == k)).map Prod.snd

/-- One per-slot metadata record, as built by `add_documents` (lines 92-99 of
vectorstore.py): the six fixed keys plus the pass-through keys. -/
structure MetaRecord where
  doc_id : Nat
  chunk_index : MVal
  source : MVal
  document_id : MVal
  title : MVal
  timestamp : String
  extra : List (String × MVal)
deriving DecidableEq

def defaultRecord : MetaRecord :=
  ⟨0, .n 0, .s "", .s "", .s "", "", []⟩

/-- The six keys that are always present in a record; additional metadata keys
are copied only when not among these (`if key not in meta`). -/
def baseKeys : List String :=
  ["doc_id", "chunk_index", "source", "document_id", "title", "timestamp"]

/-- The record built for one document at slot `docIdx` (lines 88-104). -/
def mkRecord (docIdx : Nat) (doc : Document) (now : String) : MetaRecord :=
  ⟨docIdx,
   lookupMV doc.metadata "chunk_index" (.n 0),
   lookupMV doc.metadata "source" (.s "unknown"),
   lookupMV doc.metadata "document_id" (.s "unknown"),
   lookupMV doc.metadata "title" (.s ""),
   now,
   doc.metadata.filter (fun p => ¬ baseKeys.contains p.1)⟩

/-- Componentwise dot product (trailing components of the longer list are
ignored, matching fixed-dimension numpy arrays where lengths agree). -/
noncomputable def dot (u v : List ℝ) : ℝ :=
  (List.zipWith (fun a b => a * b) u v).sum

/-- Sum of squares of a vector (the `nr` of `faiss.normalize_L2`). -/
noncomputable def sqNorm (v : List ℝ) : ℝ := dot v v

/-- Squared L2 distance, the raw score returned by `IndexFlatL2.search`. -/
noncomputable def sqDist (u v : List ℝ) : ℝ :=
  (List.zipWith (fun a b => (a - b) ^ 2) u v).sum

/-- `faiss.normalize_L2`: scale by the inverse L2 norm when the squared norm
is positive, leave the vector unchanged otherwise. -/
noncomputable def normalizeL2 (v : List ℝ) : List ℝ :=
  if 0 < sqNorm v then v.map (fun x => x / Real.sqrt (sqNorm v)) else v

/-- A FAISS `IndexFlatL2`: fixed dimension `d` and the stored vectors in
insertion order (slot `i` is position `i`). -/
structure FaissIndex where
  d : Nat
  vectors : List (List ℝ)

/-- In-memory state of a `CollegeVectorStore`: `self.index`, `self.metadata`,
`self.documents`. -/
structure Mem where
  index : Option FaissIndex
  metadata : List MetaRecord
  documents : List String

/-- `_initialize_new_index` (lines 60-65). -/
def emptyMem : Mem := ⟨none, [], []⟩

/-- The three persisted artifacts of one tenant (`faiss_index`,
`metadata.pkl`, `documents.pkl`); `none` means the file does not exist. -/
structure Disk where
  indexFile : Option FaissIndex
  metadataFile : Option (List MetaRecord)
  documentsFile : Option (List String)

def emptyDisk : Disk := ⟨none, none, none⟩

/-- The load-or-initialize method of the store (lines 37-58, named after its
underscore-prefixed Python original): if all three files exist, load them;
`loadOk` models whether deserialization of the triple succeeds (the
`try/except` around the three reads); any failure or missing file yields a
fresh empty state. -/
def load_or_init (disk : Disk) (loadOk : Bool) : Mem :=
  match disk.indexFile, disk.metadataFile, disk.documentsFile with
  | some idx, some md, some docs => if loadOk then ⟨some idx, md, docs⟩ else emptyMem
  | _, _, _ => emptyMem

/-- The file operations `_save_index` could in principle perform.  `overwrite`
is an in-place rewrite of the final path (`faiss.write_index(..., path)`,
`open(path, 'wb')`); `writeTemp`/`publishTemp` are the stage-then-rename
[write-new-then-replace] alternative, which this code never performs. -/
inductive FileKind where
  | indexF
  | metadataF
  | documentsF
deriving DecidableEq

inductive WriteOp where
  | overwrite (f : FileKind)
  | writeTemp (f : FileKind)
  | publishTemp (f : FileKind)
deriving DecidableEq

/-- The sequence of file writes performed by `_save_index` (lines 113-126):
three sequential in-place overwrites of the final paths. -/
def saveIndexOps : List WriteOp :=
  [.overwrite .indexF, .overwrite .metadataF, .overwrite .documentsF]

/-- Effect of one file operation on the durable state, given the in-memory
state being saved.  Staging writes touch only a temporary location, so they do
not change the visible artifacts; the publish step is never emitted by this
code, so it is also modelled as leaving artifacts unchanged. -/
def applyWriteOp (mem : Mem) (disk : Disk) : WriteOp → Disk
  | .overwrite .indexF => ⟨mem.index, disk.metadataFile, disk.documentsFile⟩
  | .overwrite .metadataF => ⟨disk.indexFile, some mem.metadata, disk.documentsFile⟩
  | .overwrite .documentsF => ⟨disk.indexFile, disk.metadataFile, some mem.documents⟩
  | .writeTemp _ => disk
  | .publishTemp _ => disk

inductive SaveError where
  | writeIndexNone
deriving DecidableEq

/-- `_save_index` (lines 113-126).  `faiss.write_index(self.index, path)` with
`self.index = None` raises before anything is written (the durable state is
untouched); otherwise the three artifacts are overwritten in sequence. -/
def save_index (mem : Mem) (disk : Disk) : Option SaveError × Disk :=
  match mem.index with
  | none => (some .writeIndexNone, disk)
  | some _ => (none, saveIndexOps.foldl (applyWriteOp mem) disk)

/-- Durable state after a crash that interrupts `_save_index` once the first
`k` file operations have completed. -/
def saveCrash (mem : Mem) (disk : Disk) (k : Nat) : Disk :=
  (saveIndexOps.take k).foldl (applyWriteOp mem) disk

inductive AddError where
  | invalidBatch
  | dimensionMismatch
  | saveError (e : SaveError)
deriving DecidableEq

/-- `add_documents` (lines 67-111), returning the raised exception (if any)
together with the in-memory state and the durable state as they stand when
the method returns or raises.  Empty input returns immediately (lines 69-71).
`np.array(...).astype('float32')` raises on a ragged batch (`invalidBatch`).
With no index yet, the dimension is fixed from the first vector (lines
77-80).  `index.add` checks the batch dimension against the index dimension
before adding anything (`dimensionMismatch`), and both checks precede every
mutation, so an error leaves the prior state untouched.  Vectors are
L2-normalized before insertion (line 83), records and chunk texts are
appended in input order (lines 86-107), and `_save_index` runs before
returning (line 110). -/
noncomputable def add_documents (mem : Mem) (disk : Disk) (docs : List Document)
    (embs : List (List ℝ)) (now : String) : Option AddError × Mem × Disk :=
  match docs, embs with
  | [], _ => (none, mem, disk)
  | _, [] => (none, mem, disk)
  | d0 :: ds, e0 :: es =>
    if es.all (fun e => e.length == e0.length) then
      let idx0 : FaissIndex :=
        match mem.index with
        | none => ⟨e0.length, []⟩
        | some i => i
      if e0.length = idx0.d then
        let idx1 : FaissIndex := ⟨idx0.d, idx0.vectors ++ (e0 :: es).map normalizeL2⟩
        let newRecs := (d0 :: ds).enum.map
          (fun p => mkRecord (mem.metadata.length + p.1) p.2 now)
        let mem' : Mem :=
          ⟨some idx1, mem.metadata ++ newRecs,
           mem.documents ++ (d0 :: ds).map Document.page_content⟩
        match save_index mem' disk with
        | (some e, d) => (some (.saveError e), mem', d)
        | (none, disk') => (none, mem', disk')
      else (some .dimensionMismatch, mem, disk)
    else (some .invalidBatch, mem, disk)

/-- Squared L2 distance from the (already normalized) query to slot `i`. -/
noncomputable def slotDist (vs : List (List ℝ)) (q : List ℝ) (i : Nat) : ℝ :=
  sqDist q (vs.getD i [])

/-- Comparison used by the flat-index k-nearest search: ascending distance,
ties broken by ascending slot id. -/
noncomputable def slotLE (vs : List (List ℝ)) (q : List ℝ) (i j : Nat) : Bool :=
  decide (slotDist vs q i < slotDist vs q j ∨
          (slotDist vs q i = slotDist vs q j ∧ i ≤ j))

/-- All slots of the index ranked by ascending distance to the query (ties by
ascending slot id). -/
noncomputable def rankSlots (vs : List (List ℝ)) (q : List ℝ) : List Nat :=
  (List.range vs.length).mergeSort (slotLE vs q)

/-- `IndexFlatL2.search(q, k)`: the distances and int64 labels of the `k`
nearest slots, padded with label `-1` when `k` exceeds the number of stored
vectors. -/
noncomputable def faissSearchFlat (idx : FaissIndex) (q : List ℝ) (k : Nat) :
    List ℝ × List Int :=
  let top := (rankSlots idx.vectors q).take k
  (top.map (slotDist idx.vectors q) ++ List.replicate (k - top.length) 0,
   top.map Int.ofNat ++ List.replicate (k - top.length) (-1))

/-- `settings.TOP_K_RETRIEVAL` (config.py). -/
def TOP_K_RETRIEVAL : Nat := 5

/-- The `(slot, distance)` pairs surviving the result loop of `search`
(lines 148-157): labels are kept only when `idx < len(self.documents)` and
`idx >= 0`, which drops the `-1` padding. -/
noncomputable def searchPairs (mem : Mem) (q : List ℝ) (k : Nat) :
    List (Nat × ℝ) :=
  match mem.index with
  | none => []
  | some idx =>
    let qn := normalizeL2 q
    let r := faissSearchFlat idx qn k
    (r.2.zip r.1).filterMap (fun p =>
      if p.1 < (mem.documents.length : Int) ∧ 0 ≤ p.1
      then some (p.1.toNat, p.2) else none)

/-- One returned metadata record: the slot's record plus the added
`distance` and `similarity` keys (lines 152-155). -/
structure SearchMeta where
  record : MetaRecord
  distance : ℝ
  similarity : ℝ

/-- `search` (lines 128-159): empty result on an empty index, otherwise the
documents and augmented records of the up-to-`top_k` nearest slots, with
`similarity = 1 - distance / 2`.  `top_k = none` models the Python default
`None`, resolved to `settings.TOP_K_RETRIEVAL`. -/
noncomputable def search (mem : Mem) (q : List ℝ) (topK : Option Nat) :
    List String × List SearchMeta :=
  match mem.index with
  | none => ([], [])
  | some idx =>
    if idx.vectors.length = 0 then ([], [])
    else
      let k := topK.getD TOP_K_RETRIEVAL
      let pairs := searchPairs mem q k
      (pairs.map (fun p => mem.documents.getD p.1 ""),
       pairs.map (fun p => ⟨mem.metadata.getD p.1 defaultRecord, p.2, 1 - p.2 / 2⟩))

/-- `indices_to_keep` (lines 169-173): the slots whose record's
`document_id` differs from the one being deleted, in ascending order. -/
def keepIdx (mem : Mem) (docId : String) : List Nat :=
  (mem.metadata.enum.filter (fun p => p.2.document_id != MVal.s docId)).map Prod.fst

/-- The rebuilt state of `delete_document` (lines 180-201): a fresh index of
the same dimension over the surviving slots' vectors, records and texts, in
their original relative order (`reconstruct` of each kept slot). -/
noncomputable def rebuiltMem (mem : Mem) (idx : FaissIndex) (keep : List Nat) : Mem :=
  ⟨some ⟨idx.d, keep.map (fun i => idx.vectors.getD i (List.replicate idx.d 0))⟩,
   keep.map (fun i => mem.metadata.getD i defaultRecord),
   keep.map (fun i => mem.documents.getD i "")⟩

/-- `delete_document` (lines 161-208): no-op on an empty index or when no
record matches; otherwise rebuild a fresh index over the surviving slots in
order (or reinitialize empty when none survive) and call `_save_index`.  The
third component is the exception `_save_index` raises in the all-removed case
(`faiss.write_index` on `None`). -/
noncomputable def delete_document (mem : Mem) (disk : Disk) (docId : String) :
    Mem × Disk × Option SaveError :=
  match mem.index with
  | none => (mem, disk, none)
  | some idx =>
    if idx.vectors.length = 0 then (mem, disk, none)
    else
      let keep := keepIdx mem docId
      if keep.length = mem.metadata.length then (mem, disk, none)
      else
        let mem' : Mem :=
          if 0 < keep.length then rebuiltMem mem idx keep else emptyMem
        let r := save_index mem' disk
        (mem', r.2, r.1)

/-- `clear` (lines 210-222): reinitialize the in-memory state and remove the
three files. -/
def clear (_mem : Mem) (_disk : Disk) : Mem × Disk :=
  (emptyMem, emptyDisk)

/-! Chunking (`app/utils/chunking.py`, class `DocumentProcessor`). -/

/-- Separators handed to the splitter for general documents
(`__init__`, line 28). -/
def defaultSeparators : List String :=
  ["\n\n", "\n", ". ", " ", ""]

/-- Separators handed to the splitter for markdown documents
(`process_file`, line 68): heading markers first. -/
def mdSeparators : List String :=
  ["\n## ", "\n### ", "\n#### ", "\n\n", "\n", ". ", " ", ""]

/-- The whitespace stripped by Python `str.strip()` (ASCII portion). -/
def isSpaceChar (c : Char) : Bool :=
  c == ' ' || c == '\t' || c == '\n' || c == '\r'

/-- Python `str.strip()`. -/
def trimChars (l : List Char) : List Char :=
  ((l.dropWhile isSpaceChar).reverse.dropWhile isSpaceChar).reverse

/-- Split a character list at every occurrence of `c` (Python `str.split`). -/
def splitOnChar (c : Char) : List Char → List (List Char)
  | [] => [[]]
  | x :: xs =>
    if x == c then [] :: splitOnChar c xs
    else
      match splitOnChar c xs with
      | [] => [[x]]
      | l :: ls => (x :: l) :: ls

/-- Split `s` around the first occurrence of `pat`: returns the part before
the match and the part after it, or `none` when `pat` does not occur. -/
def splitFirst (pat : List Char) (s : List Char) : Option (List Char × List Char) :=
  match s with
  | [] => if pat.isEmpty then some ([], []) else none
  | c :: rest =>
    if pat.isPrefixOf s then some ([], s.drop pat.length)
    else
      match splitFirst pat rest with
      | some (pre, post) => some (c :: pre, post)
      | none => none

/-- A line matched by `^# (.+)$` under `re.MULTILINE`. -/
def isH1Line (l : List Char) : Bool :=
  ("# ".data).isPrefixOf l && decide (2 < l.length)

/-- A line matched by `^## (.+)$` under `re.MULTILINE`. -/
def isH2Line (l : List Char) : Bool :=
  ("## ".data).isPrefixOf l && decide (3 < l.length)

/-- `re.search(r'^# (.+)$', text, re.MULTILINE)` followed by
`.group(1).strip()`: the stripped remainder of the first h1 line. -/
def extractH1 (text : List Char) : Option (List Char) :=
  ((splitOnChar '\n' text).find? isH1Line).map (fun l => trimChars (l.drop 2))

/-- `re.findall(r'^## (.+)$', text, re.MULTILINE)`: the (unstripped)
remainders of all h2 lines. -/
def extractH2s (text : List Char) : List (List Char) :=
  ((splitOnChar '\n' text).filter isH2Line).map (fun l => l.drop 3)

/-- `re.search(r'---\n(.*?)\n---', text, re.DOTALL)`: the lazily-matched
group between the first `---` pair, anywhere in the text. -/
def findFrontmatter (text : List Char) : Option (List Char) :=
  match splitFirst ("---\n".data) text with
  | none => none
  | some (_, rest) =>
    match splitFirst ("\n---".data) rest with
    | none => none
    | some (grp, _) => some grp

/-- The key-value pairs parsed from a front-matter group: every line
containing `':'` is split at its first colon and both sides stripped
(lines 140-143 of chunking.py). -/
def parseFMLines (grp : List Char) : List (String × MVal) :=
  (splitOnChar '\n' grp).filterMap (fun line =>
    if line.contains ':' then
      some ((trimChars (line.takeWhile (fun c => c != ':'))).asString,
            MVal.s ((trimChars ((line.dropWhile (fun c => c != ':')).drop 1)).asString))
    else none)

/-- Python dict assignment `m[k] = v`: any previous binding of `k` is
replaced. -/
def dictInsert (m : List (String × MVal)) (k : String) (v : MVal) :
    List (String × MVal) :=
  (m.filter (fun p => p.1 != k)) ++ [(k, v)]

/-- Python `old.update(upd)`: every binding of `upd` is assigned into `old`
in order, overwriting same-named keys. -/
def metaUpdate (old upd : List (String × MVal)) : List (String × MVal) :=
  upd.foldl (fun acc p => dictInsert acc p.1 p.2) old

/-- `extract_markdown_headers` (lines 118-145): the `header_info` dict built
from the first h1 line (as `title`), all h2 lines (as `sections`), and the
key-value lines of the first `---`-delimited block. -/
def extract_markdown_headers (text : String) : List (String × MVal) :=
  let cs := text.data
  let h0 : List (String × MVal) :=
    match extractH1 cs with
    | some t => dictInsert [] "title" (.s t.asString)
    | none => []
  let h1 : List (String × MVal) :=
    match extractH2s cs with
    | [] => h0
    | ms => dictInsert h0 "sections" (.l (ms.map List.asString))
  match findFrontmatter cs with
  | none => h1
  | some grp => metaUpdate h1 (parseFMLines grp)

/-- The markdown branch of `process_file` (lines 61-82): split the text with
the markdown separators (the langchain splitter itself is external, so it is
a parameter `split`), then give each chunk the document metadata updated with
the base metadata, its `chunk_index`, and the extracted header info, in that
order. -/
def processFileMd (split : List String → String → List String)
    (docMeta base : List (String × MVal)) (text : String) :
    List (String × List (String × MVal)) :=
  let meta0 := metaUpdate docMeta base
  ((split mdSeparators text).enum).map (fun p =>
    (p.2, metaUpdate (dictInsert meta0 "chunk_index" (.n p.1))
            (extract_markdown_headers p.2)))

/-- Following the claim's wording, not the code: a front-matter block counts
only when it is leading, i.e. the chunk text itself starts with `---`. -/
def claimLeadingFrontmatter (text : String) : Option (List Char) :=
  if ("---\n".data).isPrefixOf text.data then
    match splitFirst ("\n---".data) (text.data.drop 4) with
    | some (grp, _) => some grp
    | none => none
  else none

/-! Invariants and derived notions. -/

/-- Number of stored vectors (`self.index.ntotal`, 0 when there is no index). -/
def numVectors (mem : Mem) : Nat :=
  match mem.index with
  | none => 0
  | some idx => idx.vectors.length

/-- The stored vector sequence (empty when there is no index). -/
def memVectors (mem : Mem) : List (List ℝ) :=
  match mem.index with
  | none => []
  | some idx => idx.vectors

/-- The parallel-arrays invariant of one tenant index: as many stored vectors
as metadata records as chunk texts. -/
def Inv (mem : Mem) : Prop :=
  numVectors mem = mem.metadata.length ∧ mem.metadata.length = mem.documents.length

/-- A durable state is consistent when loading it (successfully or not)
yields a consistent in-memory state. -/
def DiskInv (disk : Disk) : Prop :=
  ∀ ok, Inv (load_or_init disk ok)

/-- Applying a sequence of `add` batches to a store, as a caller of the class
would: each batch yields the state the method left behind (on an exception
the prior state, since every failing check precedes mutation). -/
noncomputable def runBatches :
    List (List Document × List (List ℝ) × String) → Mem × Disk → Mem × Disk
  | [], s => s
  | b :: bs, s => runBatches bs (add_documents s.1 s.2 b.1 b.2.1 b.2.2).2

/-- The durable state that holds exactly the given in-memory state. -/
def diskOf (mem : Mem) : Disk :=
  ⟨mem.index, some mem.metadata, some mem.documents⟩

/-! Basic lemmas about saving and loading. -/

theorem save_index_eq (mem : Mem) (disk : Disk) (idx : FaissIndex)
    (h : mem.index = some idx) :
    save_index mem disk = (none, diskOf mem) := by
  simp [save_index, h, saveIndexOps, applyWriteOp, diskOf]

theorem load_diskOf (mem : Mem) (idx : FaissIndex) (h : mem.index = some idx) :
    load_or_init (diskOf mem) true = mem := by
  cases mem with
  | mk i md dc =>
    simp only at h
    subst h
    simp [load_or_init, diskOf]

theorem inv_emptyMem : Inv emptyMem := ⟨rfl, rfl⟩

theorem diskInv_emptyDisk : DiskInv emptyDisk := by
  intro ok
  cases ok <;> exact ⟨rfl, rfl⟩

theorem diskInv_diskOf (mem : Mem) (idx : FaissIndex) (h : mem.index = some idx)
    (hm : Inv mem) : DiskInv (diskOf mem) := by
  cases mem with
  | mk i md dc =>
    simp only at h
    subst h
    intro ok
    cases ok
    · exact ⟨rfl, rfl⟩
    · rw [load_diskOf ⟨some idx, md, dc⟩ idx rfl]
      exact hm

/-! Case lemmas for `add_documents`. -/

theorem add_documents_empty (mem : Mem) (disk : Disk) (docs : List Document)
    (embs : List (List ℝ)) (now : String) (h : docs = [] ∨ embs = []) :
    add_documents mem disk docs embs now = (none, mem, disk) := by
  rcases h with h | h
  · subst h; cases embs <;> rfl
  · subst h; cases docs <;> rfl

theorem add_documents_ragged (mem : Mem) (disk : Disk) (d0 : Document)
    (ds : List Document) (e0 : List ℝ) (es : List (List ℝ)) (now : String)
    (hall : es.all (fun e => e.length == e0.length) = false) :
    add_documents mem disk (d0 :: ds) (e0 :: es) now =
      (some .invalidBatch, mem, disk) := by
  simp [add_documents, hall]

theorem add_documents_dim_mismatch (mem : Mem) (disk : Disk) (idx : FaissIndex)
    (d0 : Document) (ds : List Document) (e0 : List ℝ) (es : List (List ℝ))
    (now : String) (hidx : mem.index = some idx)
    (hall : es.all (fun e => e.length == e0.length) = true)
    (hdim : e0.length ≠ idx.d) :
    add_documents mem disk (d0 :: ds) (e0 :: es) now =
      (some .dimensionMismatch, mem, disk) := by
  simp [add_documents, hall, hidx, hdim]

/-- The in-memory state produced by a successful non-empty `add`. -/
noncomputable def addedMem (mem : Mem) (d : Nat) (docs : List Document)
    (embs : List (List ℝ)) (now : String) : Mem :=
  ⟨some ⟨d, memVectors mem ++ embs.map normalizeL2⟩,
   mem.metadata ++ docs.enum.map (fun p => mkRecord (mem.metadata.length + p.1) p.2 now),
   mem.documents ++ docs.map Document.page_content⟩

theorem add_documents_ok_fresh (mem : Mem) (disk : Disk) (d0 : Document)
    (ds : List Document) (e0 : List ℝ) (es : List (List ℝ)) (now : String)
    (hidx : mem.index = none)
    (hall : es.all (fun e => e.length == e0.length) = true) :
    add_documents mem disk (d0 :: ds) (e0 :: es) now =
      (none, addedMem mem e0.length (d0 :: ds) (e0 :: es) now,
       diskOf (addedMem mem e0.length (d0 :: ds) (e0 :: es) now)) := by
  simp [add_documents, hall, hidx, addedMem, memVectors, save_index,
    saveIndexOps, applyWriteOp, diskOf]

theorem add_documents_ok_existing (mem : Mem) (disk : Disk) (idx : FaissIndex)
    (d0 : Document) (ds : List Document) (e0 : List ℝ) (es : List (List ℝ))
    (now : String) (hidx : mem.index = some idx)
    (hall : es.all (fun e => e.length == e0.length) = true)
    (hdim : e0.length = idx.d) :
    add_documents mem disk (d0 :: ds) (e0 :: es) now =
      (none, addedMem mem idx.d (d0 :: ds) (e0 :: es) now,
       diskOf (addedMem mem idx.d (d0 :: ds) (e0 :: es) now)) := by
  simp [add_documents, hall, hidx, hdim, addedMem, memVectors, save_index,
    saveIndexOps, applyWriteOp, diskOf]
  intro x hx
  have hx' := List.all_eq_true.mp hall x hx
  rw [← hdim]
  simpa using hx'

/-! Invariant preservation lemmas. -/

theorem memVectors_length (mem : Mem) : (memVectors mem).length = numVectors mem := by
  cases h : mem.index <;> simp [memVectors, numVectors, h]

theorem inv_addedMem (mem : Mem) (d : Nat) (docs : List Document)
    (embs : List (List ℝ)) (now : String) (hm : Inv mem)
    (hlen : docs.length = embs.length) :
    Inv (addedMem mem d docs embs now) := by
  cases mem with
  | mk i md dc =>
    obtain ⟨h1, h2⟩ := hm
    dsimp only [numVectors] at h1
    dsimp only at h2
    cases i with
    | none =>
      simp only [numVectors] at h1
      constructor <;>
        · simp only [addedMem, numVectors, memVectors, List.length_append,
            List.length_map, List.enum_length, List.nil_append]
          omega
    | some idx =>
      simp only [numVectors] at h1
      constructor <;>
        · simp only [addedMem, numVectors, memVectors, List.length_append,
            List.length_map, List.enum_length]
          omega

theorem inv_rebuiltMem (mem : Mem) (idx : FaissIndex) (keep : List Nat) :
    Inv (rebuiltMem mem idx keep) := by
  constructor <;> simp [rebuiltMem, numVectors]

/-! Case lemmas for `delete_document`. -/

theorem delete_document_noindex (mem : Mem) (disk : Disk) (docId : String)
    (h : mem.index = none) :
    delete_document mem disk docId = (mem, disk, none) := by
  simp [delete_document, h]

theorem delete_document_emptyindex (mem : Mem) (disk : Disk) (docId : String)
    (idx : FaissIndex) (h : mem.index = some idx) (hz : idx.vectors.length = 0) :
    delete_document mem disk docId = (mem, disk, none) := by
  simp [delete_document, h, hz]

theorem delete_document_nomatch (mem : Mem) (disk : Disk) (docId : String)
    (idx : FaissIndex) (h : mem.index = some idx) (hz : idx.vectors.length ≠ 0)
    (hk : (keepIdx mem docId).length = mem.metadata.length) :
    delete_document mem disk docId = (mem, disk, none) := by
  simp [delete_document, h, hz, hk]

theorem delete_document_rebuild (mem : Mem) (disk : Disk) (docId : String)
    (idx : FaissIndex) (h : mem.index = some idx) (hz : idx.vectors.length ≠ 0)
    (hk : (keepIdx mem docId).length ≠ mem.metadata.length)
    (hp : 0 < (keepIdx mem docId).length) :
    delete_document mem disk docId =
      (rebuiltMem mem idx (keepIdx mem docId),
       diskOf (rebuiltMem mem idx (keepIdx mem docId)), none) := by
  simp [delete_document, h, hz, hk, hp,
    save_index_eq (rebuiltMem mem idx (keepIdx mem docId)) disk _ rfl]

theorem delete_document_allremoved (mem : Mem) (disk : Disk) (docId : String)
    (idx : FaissIndex) (h : mem.index = some idx) (hz : idx.vectors.length ≠ 0)
    (hk : (keepIdx mem docId).length ≠ mem.metadata.length)
    (hp : ¬ 0 < (keepIdx mem docId).length) :
    delete_document mem disk docId = (emptyMem, disk, some .writeIndexNone) := by
  simp [delete_document, h, hz, hk, hp, save_index, emptyMem]

/-- C1: for every tenant vector index, the number of stored vectors equals
the number of metadata records and the number of stored chunk texts, and the
invariant is preserved by every operation: `add` (under its precondition that
chunks and vectors have equal length — also when `add` raises, since every
check precedes mutation), `delete_by_document` (all outcome paths, including
the all-removed one), `clear` and `open`; `search` is embedded as a pure
function of the state and performs no mutation.  A successful `add`
additionally appends vectors, records and chunk texts strictly in parallel
and in input order, so slot `i` of the vectors keeps corresponding to slot
`i` of the records. -/
theorem C1_parallel_invariant (mem : Mem) (disk : Disk) (docs : List Document)
    (embs : List (List ℝ)) (now docId : String) (ok : Bool)
    (hm : Inv mem) (hd : DiskInv disk) :
    (docs.length = embs.length →
      Inv (add_documents mem disk docs embs now).2.1 ∧
      DiskInv (add_documents mem disk docs embs now).2.2 ∧
      ((add_documents mem disk docs embs now).1 = none →
        memVectors (add_documents mem disk docs embs now).2.1
          = memVectors mem ++ embs.map normalizeL2 ∧
        (add_documents mem disk docs embs now).2.1.metadata
          = mem.metadata
            ++ docs.enum.map (fun p => mkRecord (mem.metadata.length + p.1) p.2 now) ∧
        (add_documents mem disk docs embs now).2.1.documents
          = mem.documents ++ docs.map Document.page_content)) ∧
    (Inv (delete_document mem disk docId).1 ∧
     DiskInv (delete_document mem disk docId).2.1) ∧
    (Inv (clear mem disk).1 ∧ DiskInv (clear mem disk).2) ∧
    Inv (load_or_init disk ok) := by
  refine ⟨?_, ?_, ⟨inv_emptyMem, diskInv_emptyDisk⟩, hd ok⟩
  · intro hlen
    match docs, embs with
    | [], embs =>
      have hembs : embs = [] := by
        simpa using hlen.symm
      subst hembs
      rw [add_documents_empty mem disk [] [] now (Or.inl rfl)]
      exact ⟨hm, hd, fun _ => ⟨by simp, by simp, by simp⟩⟩
    | d0 :: ds, [] => simp at hlen
    | d0 :: ds, e0 :: es =>
      cases hall : es.all (fun e => e.length == e0.length) with
      | false =>
        rw [add_documents_ragged mem disk d0 ds e0 es now hall]
        exact ⟨hm, hd, fun h => by simp at h⟩
      | true =>
        cases hidx : mem.index with
        | none =>
          rw [add_documents_ok_fresh mem disk d0 ds e0 es now hidx hall]
          refine ⟨inv_addedMem mem e0.length _ _ now hm hlen, ?_, fun _ => ?_⟩
          · exact diskInv_diskOf _ _ rfl (inv_addedMem mem e0.length _ _ now hm hlen)
          · exact ⟨by simp [addedMem, memVectors], rfl, rfl⟩
        | some idx =>
          by_cases hdim : e0.length = idx.d
          · rw [add_documents_ok_existing mem disk idx d0 ds e0 es now hidx hall hdim]
            refine ⟨inv_addedMem mem idx.d _ _ now hm hlen, ?_, fun _ => ?_⟩
            · exact diskInv_diskOf _ _ rfl (inv_addedMem mem idx.d _ _ now hm hlen)
            · exact ⟨by simp [addedMem, memVectors], rfl, rfl⟩
          · rw [add_documents_dim_mismatch mem disk idx d0 ds e0 es now hidx hall hdim]
            exact ⟨hm, hd, fun h => by simp at h⟩
  · cases hidx : mem.index with
    | none =>
      rw [delete_document_noindex mem disk docId hidx]
      exact ⟨hm, hd⟩
    | some idx =>
      by_cases hz : idx.vectors.length = 0
      · rw [delete_document_emptyindex mem disk docId idx hidx hz]
        exact ⟨hm, hd⟩
      · by_cases hk : (keepIdx mem docId).length = mem.metadata.length
        · rw [delete_document_nomatch mem disk docId idx hidx hz hk]
          exact ⟨hm, hd⟩
        · by_cases hp : 0 < (keepIdx mem docId).length
          · rw [delete_document_rebuild mem disk docId idx hidx hz hk hp]
            exact ⟨inv_rebuiltMem mem idx _, diskInv_diskOf _ _ rfl (inv_rebuiltMem mem idx _)⟩
          · rw [delete_document_allremoved mem disk docId idx hidx hz hk hp]
            exact ⟨inv_emptyMem, hd⟩

/-- Witness for C1 at a concrete store: the hypotheses hold for the empty
store, and one instantiated consequence is spelled out. -/
theorem C1_parallel_invariant_witness :
    Inv emptyMem ∧ DiskInv emptyDisk ∧
      Inv (delete_document emptyMem emptyDisk "A").1 := by
  refine ⟨inv_emptyMem, diskInv_emptyDisk, ?_⟩
  exact (C1_parallel_invariant emptyMem emptyDisk [] [] "" "A" true
    inv_emptyMem diskInv_emptyDisk).2.1.1

/-- C2: the first successful `add` into an empty index fixes the
dimensionality `D` to the length of the first vector; any later `add` whose
vectors' common length differs from `D` raises the dimension-mismatch error
and returns with the in-memory state and the durable state exactly as they
were (every check precedes mutation in `add_documents`). -/
theorem C2_dimension_lock (mem : Mem) (disk : Disk) (d0 : Document)
    (ds : List Document) (e0 : List ℝ) (es : List (List ℝ)) (now : String) :
    (mem.index = none →
      (add_documents mem disk (d0 :: ds) (e0 :: es) now).1 = none →
      ∃ idx, (add_documents mem disk (d0 :: ds) (e0 :: es) now).2.1.index = some idx ∧
        idx.d = e0.length) ∧
    (∀ idx L, mem.index = some idx → (∀ e ∈ e0 :: es, e.length = L) → L ≠ idx.d →
      add_documents mem disk (d0 :: ds) (e0 :: es) now =
        (some .dimensionMismatch, mem, disk)) := by
  constructor
  · intro hidx hok
    cases hall : es.all (fun e => e.length == e0.length) with
    | false =>
      rw [add_documents_ragged mem disk d0 ds e0 es now hall] at hok
      simp at hok
    | true =>
      rw [add_documents_ok_fresh mem disk d0 ds e0 es now hidx hall]
      exact ⟨_, rfl, rfl⟩
  · intro idx L hidx hall hne
    have h0 : e0.length = L := hall e0 (List.mem_cons_self e0 es)
    have hall' : es.all (fun e => e.length == e0.length) = true := by
      refine List.all_eq_true.mpr fun e he => ?_
      have : e.length = L := hall e (List.mem_cons_of_mem e0 he)
      simp [this, h0]
    exact add_documents_dim_mismatch mem disk idx d0 ds e0 es now hidx hall'
      (by rw [h0]; exact hne)

/-- Witness for C2: a store locked to dimension 2 rejects a 3-dimensional
batch and is returned unchanged. -/
theorem C2_dimension_lock_witness :
    add_documents ⟨some ⟨2, [[(1 : ℝ), 0]]⟩, [defaultRecord], ["c"]⟩ emptyDisk
        [⟨"x", []⟩] [[(1 : ℝ), 2, 3]] "t" =
      (some .dimensionMismatch,
       ⟨some ⟨2, [[(1 : ℝ), 0]]⟩, [defaultRecord], ["c"]⟩, emptyDisk) := by
  exact (C2_dimension_lock ⟨some ⟨2, [[(1 : ℝ), 0]]⟩, [defaultRecord], ["c"]⟩
    emptyDisk ⟨"x", []⟩ [] [(1 : ℝ), 2, 3] [] "t").2 ⟨2, [[(1 : ℝ), 0]]⟩ 3 rfl
    (by simp) (by decide)

/-- Round-trip through `_save_index` / `_load_or_init` is preserved by
one `add` call, whatever its outcome. -/
theorem add_roundtrip (mem : Mem) (disk : Disk) (docs : List Document)
    (embs : List (List ℝ)) (now : String)
    (h : load_or_init disk true = mem) :
    load_or_init (add_documents mem disk docs embs now).2.2 true
      = (add_documents mem disk docs embs now).2.1 := by
  match docs, embs with
  | [], embs =>
    rw [add_documents_empty mem disk [] embs now (Or.inl rfl)]
    exact h
  | d0 :: ds, [] =>
    rw [add_documents_empty mem disk (d0 :: ds) [] now (Or.inr rfl)]
    exact h
  | d0 :: ds, e0 :: es =>
    cases hall : es.all (fun e => e.length == e0.length) with
    | false =>
      rw [add_documents_ragged mem disk d0 ds e0 es now hall]
      exact h
    | true =>
      cases hidx : mem.index with
      | none =>
        rw [add_documents_ok_fresh mem disk d0 ds e0 es now hidx hall]
        exact load_diskOf _ _ rfl
      | some idx =>
        by_cases hdim : e0.length = idx.d
        · rw [add_documents_ok_existing mem disk idx d0 ds e0 es now hidx hall hdim]
          exact load_diskOf _ _ rfl
        · rw [add_documents_dim_mismatch mem disk idx d0 ds e0 es now hidx hall hdim]
          exact h

/-- C6: starting from any store whose durable state reloads to its in-memory
state (in particular a fresh tenant), any sequence of `add` batches leaves a
durable state that, on reopening (successful load of the persisted triple),
reproduces the in-memory vectors, records and chunk texts exactly, in
content and order. -/
theorem C6_roundtrip (bs : List (List Document × List (List ℝ) × String))
    (mem : Mem) (disk : Disk) (h : load_or_init disk true = mem) :
    load_or_init (runBatches bs (mem, disk)).2 true
      = (runBatches bs (mem, disk)).1 := by
  induction bs generalizing mem disk with
  | nil => exact h
  | cons b bs ih =>
    have step := add_roundtrip mem disk b.1 b.2.1 b.2.2 h
    simpa [runBatches] using ih _ _ step

/-- Witness for C6: one concrete batch added to a fresh store round-trips. -/
theorem C6_roundtrip_witness :
    load_or_init
        (runBatches [([⟨"c", []⟩], [[(1 : ℝ), 0]], "t")] (emptyMem, emptyDisk)).2 true
      = (runBatches [([⟨"c", []⟩], [[(1 : ℝ), 0]], "t")] (emptyMem, emptyDisk)).1 :=
  C6_roundtrip [([⟨"c", []⟩], [[(1 : ℝ), 0]], "t")] emptyMem emptyDisk rfl

/-- C8: opening a tenant never fails when no prior persisted state exists:
if any of the three artifacts is missing, or the triple fails to
deserialize, `_load_or_init` yields the fresh empty, dimensionless
state (it is a total function in this embedding; the Python code catches the
load exception and logs it). -/
theorem C8_open_tolerates_absence (disk : Disk) (ok : Bool)
    (h : disk.indexFile = none ∨ disk.metadataFile = none ∨
         disk.documentsFile = none ∨ ok = false) :
    load_or_init disk ok = emptyMem := by
  cases disk with
  | mk fi fm fd =>
    rcases h with h | h | h | h
    · simp only at h; subst h; cases fm <;> cases fd <;> rfl
    · simp only at h; subst h; cases fi <;> cases fd <;> rfl
    · simp only at h; subst h; cases fi <;> cases fm <;> rfl
    · subst h; cases fi <;> cases fm <;> cases fd <;> rfl

/-- Witness for C8: a fully missing triple opens as the empty store. -/
theorem C8_open_tolerates_absence_witness :
    load_or_init emptyDisk true = emptyMem :=
  C8_open_tolerates_absence emptyDisk true (Or.inl rfl)

/-- C10: `add` with an empty chunks list or an empty vectors list returns
immediately: no error, the in-memory state and the durable state are both
returned untouched. -/
theorem C10_empty_add_noop (mem : Mem) (disk : Disk) (docs : List Document)
    (embs : List (List ℝ)) (now : String) (h : docs = [] ∨ embs = []) :
    add_documents mem disk docs embs now = (none, mem, disk) :=
  add_documents_empty mem disk docs embs now h

/-- Witness for C10: empty chunks with a non-empty vectors list. -/
theorem C10_empty_add_noop_witness :
    add_documents emptyMem emptyDisk [] [[(1 : ℝ), 0]] "t"
      = (none, emptyMem, emptyDisk) :=
  C10_empty_add_noop emptyMem emptyDisk [] [[(1 : ℝ), 0]] "t" (Or.inl rfl)

/-- A store holding a single slot belonging to document "A". -/
noncomputable def exMemA : Mem :=
  ⟨some ⟨2, [[(1 : ℝ), 0]]⟩, [⟨0, .n 0, .s "s", .s "A", .s "", "t", []⟩], ["chunk A"]⟩

noncomputable def exDiskA : Disk := diskOf exMemA

/-- C5 (code bug): deleting the only remaining document makes
`delete_document` reinitialize the in-memory state and then call
`_save_index` with `self.index = None`, so `faiss.write_index(None, ...)`
raises instead of completing; the durable state still holds the deleted
document's slots, which resurrect on the next open. -/
theorem C5_delete_all_crashes :
    delete_document exMemA exDiskA "A" = (emptyMem, exDiskA, some .writeIndexNone) := by
  exact delete_document_allremoved exMemA exDiskA "A" ⟨2, [[(1 : ℝ), 0]]⟩ rfl
    (by decide) (by decide) (by decide)

/-- C9 counterexample: `_save_index` consists of in-place overwrites of the
final artifact paths (no staging, no atomic publish), and a crash after the
first write leaves the durable state neither at the prior state nor at the
new state. -/
theorem C9_counterexample :
    WriteOp.overwrite FileKind.metadataF ∈ saveIndexOps ∧
    saveCrash exMemA emptyDisk 1 ≠ emptyDisk ∧
    saveCrash exMemA emptyDisk 1 ≠ (save_index exMemA emptyDisk).2 := by
  refine ⟨by decide, ?_, ?_⟩
  · intro h
    have := congrArg Disk.indexFile h
    simp [saveCrash, saveIndexOps, applyWriteOp, emptyDisk, exMemA] at this
  · intro h
    have := congrArg Disk.metadataFile h
    simp [saveCrash, saveIndexOps, applyWriteOp, emptyDisk, exMemA, save_index] at this

/-- C9 amended: a successful non-empty `add` does persist the full updated
state (all three artifacts hold exactly the new in-memory state) before
returning, but `_save_index` achieves this through three sequential in-place
overwrites of the index, metadata and documents artifacts — not by staging
to a temporary location and atomically publishing — so an interruption
between the writes leaves a mix of new and old artifacts (new index with old
metadata and documents after the first write; new index and metadata with
old documents after the second). -/
theorem C9_persist_by_inplace_overwrites (mem : Mem) (disk : Disk)
    (docs : List Document) (embs : List (List ℝ)) (now : String)
    (hne : docs ≠ [] ∧ embs ≠ [])
    (hok : (add_documents mem disk docs embs now).1 = none) :
    (add_documents mem disk docs embs now).2.2
      = diskOf (add_documents mem disk docs embs now).2.1 ∧
    saveIndexOps.all
      (fun op => match op with | .overwrite _ => true | _ => false) = true ∧
    saveCrash mem disk 1 = ⟨mem.index, disk.metadataFile, disk.documentsFile⟩ ∧
    saveCrash mem disk 2 = ⟨mem.index, some mem.metadata, disk.documentsFile⟩ := by
  refine ⟨?_, rfl, rfl, rfl⟩
  match docs, embs with
  | [], _ => exact absurd rfl hne.1
  | _ :: _, [] => exact absurd rfl hne.2
  | d0 :: ds, e0 :: es =>
    cases hall : es.all (fun e => e.length == e0.length) with
    | false =>
      rw [add_documents_ragged mem disk d0 ds e0 es now hall] at hok ⊢
      simp at hok
    | true =>
      cases hidx : mem.index with
      | none =>
        rw [add_documents_ok_fresh mem disk d0 ds e0 es now hidx hall]
      | some idx =>
        by_cases hdim : e0.length = idx.d
        · rw [add_documents_ok_existing mem disk idx d0 ds e0 es now hidx hall hdim]
        · rw [add_documents_dim_mismatch mem disk idx d0 ds e0 es now hidx hall hdim] at hok ⊢
          simp at hok

/-- Witness for the amended C9 at a concrete batch. -/
theorem C9_persist_by_inplace_overwrites_witness :
    (add_documents emptyMem emptyDisk [⟨"c", []⟩] [[(1 : ℝ), 0]] "t").2.2
      = diskOf (add_documents emptyMem emptyDisk [⟨"c", []⟩] [[(1 : ℝ), 0]] "t").2.1 :=
  (C9_persist_by_inplace_overwrites emptyMem emptyDisk [⟨"c", []⟩] [[(1 : ℝ), 0]] "t"
    ⟨by simp, by simp⟩
    (by rw [add_documents_ok_fresh emptyMem emptyDisk ⟨"c", []⟩ [] [(1 : ℝ), 0] [] "t" rfl rfl])).1

/-! Search: ranking lemmas. -/

theorem slotLE_trans (vs : List (List ℝ)) (q : List ℝ) :
    ∀ a b c, slotLE vs q a b → slotLE vs q b c → slotLE vs q a c := by
  intro a b c hab hbc
  simp only [slotLE, decide_eq_true_eq] at hab hbc ⊢
  rcases hab with h1 | ⟨h1, h1'⟩ <;> rcases hbc with h2 | ⟨h2, h2'⟩
  · exact Or.inl (h1.trans h2)
  · exact Or.inl (lt_of_lt_of_eq h1 h2)
  · exact Or.inl (lt_of_eq_of_lt h1 h2)
  · exact Or.inr ⟨h1.trans h2, h1'.trans h2'⟩

theorem slotLE_total (vs : List (List ℝ)) (q : List ℝ) :
    ∀ a b, slotLE vs q a b || slotLE vs q b a := by
  intro a b
  simp only [slotLE, Bool.or_eq_true, decide_eq_true_eq]
  rcases lt_trichotomy (slotDist vs q a) (slotDist vs q b) with h | h | h
  · exact Or.inl (Or.inl h)
  · rcases Nat.le_total a b with hab | hba
    · exact Or.inl (Or.inr ⟨h, hab⟩)
    · exact Or.inr (Or.inr ⟨h.symm, hba⟩)
  · exact Or.inr (Or.inl h)

theorem rankSlots_perm (vs : List (List ℝ)) (q : List ℝ) :
    List.Perm (rankSlots vs q) (List.range vs.length) :=
  List.mergeSort_perm _ _

theorem rankSlots_length (vs : List (List ℝ)) (q : List ℝ) :
    (rankSlots vs q).length = vs.length := by
  simpa using (rankSlots_perm vs q).length_eq

theorem rankSlots_nodup (vs : List (List ℝ)) (q : List ℝ) :
    (rankSlots vs q).Nodup :=
  ((rankSlots_perm vs q).nodup_iff).mpr (List.nodup_range _)

theorem rankSlots_mem (vs : List (List ℝ)) (q : List ℝ) (i : Nat) :
    i ∈ rankSlots vs q ↔ i < vs.length := by
  rw [(rankSlots_perm vs q).mem_iff, List.mem_range]

theorem rankSlots_sorted (vs : List (List ℝ)) (q : List ℝ) :
    (rankSlots vs q).Pairwise (fun i j => slotLE vs q i j = true) := by
  simpa using @List.sorted_mergeSort _ (slotLE vs q)
    (slotLE_trans vs q) (slotLE_total vs q) (List.range vs.length)

/-- The result loop keeps exactly the real labels, in order. -/
theorem filterMap_keep (n : Nat) (dist : Nat → ℝ) :
    ∀ top : List Nat, (∀ i ∈ top, i < n) →
      ((top.map Int.ofNat).zip (top.map dist)).filterMap
        (fun p => if p.1 < (n : Int) ∧ 0 ≤ p.1 then some (p.1.toNat, p.2) else none)
        = top.map (fun i => (i, dist i)) := by
  intro top
  induction top with
  | nil => intro _; rfl
  | cons i t ih =>
    intro h
    have hin : i < n := h i (List.mem_cons_self i t)
    have hi : (Int.ofNat i < (n : Int) ∧ 0 ≤ Int.ofNat i) := by
      rw [Int.ofNat_eq_natCast]
      constructor <;> omega
    simp only [List.map_cons, List.zip_cons_cons, List.filterMap_cons]
    rw [if_pos hi]
    rw [ih (fun j hj => h j (List.mem_cons_of_mem i hj))]
    simp

/-- The `-1` padding of an underfull search is dropped by the result loop. -/
theorem filterMap_pad (n m : Nat) :
    ((List.replicate m (-1 : Int)).zip (List.replicate m (0 : ℝ))).filterMap
      (fun p => if p.1 < (n : Int) ∧ 0 ≤ p.1 then some (p.1.toNat, p.2) else none)
      = [] := by
  induction m with
  | zero => rfl
  | succ m ih =>
    simp only [List.replicate_succ, List.zip_cons_cons, List.filterMap_cons]
    rw [if_neg (by omega)]
    exact ih

/-- Under the parallel-arrays invariant, the surviving `(slot, distance)`
pairs are exactly the first `k` ranked slots with their distances. -/
theorem searchPairs_eq (mem : Mem) (idx : FaissIndex) (q : List ℝ) (k : Nat)
    (hidx : mem.index = some idx)
    (hlen : idx.vectors.length = mem.documents.length) :
    searchPairs mem q k
      = ((rankSlots idx.vectors (normalizeL2 q)).take k).map
          (fun i => (i, slotDist idx.vectors (normalizeL2 q) i)) := by
  have hmem : ∀ i ∈ (rankSlots idx.vectors (normalizeL2 q)).take k,
      i < mem.documents.length := by
    intro i hi
    have := (rankSlots_mem idx.vectors (normalizeL2 q) i).mp
      (List.take_subset k _ hi)
    omega
  simp only [searchPairs, hidx, faissSearchFlat]
  rw [List.zip_append (by simp), List.filterMap_append,
    filterMap_keep mem.documents.length _ _ hmem,
    filterMap_pad mem.documents.length _, List.append_nil]

/-- C3: for every consistent stored state and query, `search` returns the
`top_k` nearest slots by squared Euclidean distance over the normalized
query (stored vectors were normalized at insertion): the returned pair list
has exactly `min top_k n` entries, each carried distance is the slot's true
distance, returned slots are distinct, they are ordered by ascending
distance (equivalently descending similarity) with equal-distance ties
broken by ascending slot index, every returned slot is at least as near as
every omitted slot, `top_k ≥ n` returns exactly all stored slots, and
repeated searches on the same state are identical (search is a pure function
of the state). -/
theorem C3_search_ranking (mem : Mem) (idx : FaissIndex) (q : List ℝ) (k : Nat)
    (hm : Inv mem) (hidx : mem.index = some idx) (hk : 0 < k) :
    (searchPairs mem q k).length = min k idx.vectors.length ∧
    (search mem q (some k)).1.length = min k idx.vectors.length ∧
    (search mem q (some k)).2.length = min k idx.vectors.length ∧
    (∀ p ∈ searchPairs mem q k,
       p.1 < idx.vectors.length ∧
       p.2 = slotDist idx.vectors (normalizeL2 q) p.1) ∧
    ((searchPairs mem q k).map Prod.fst).Nodup ∧
    (searchPairs mem q k).Pairwise
      (fun p p' => p.2 ≤ p'.2 ∧ 1 - p'.2 / 2 ≤ 1 - p.2 / 2 ∧
        (p.2 = p'.2 → p.1 ≤ p'.1)) ∧
    (∀ p ∈ searchPairs mem q k, ∀ j, j < idx.vectors.length →
       j ∉ (searchPairs mem q k).map Prod.fst →
       slotDist idx.vectors (normalizeL2 q) p.1
         ≤ slotDist idx.vectors (normalizeL2 q) j) ∧
    (idx.vectors.length ≤ k →
       List.Perm ((searchPairs mem q k).map Prod.fst)
         (List.range idx.vectors.length)) ∧
    search mem q (some k) = search mem q (some k) := by
  have hlen : idx.vectors.length = mem.documents.length := by
    obtain ⟨h1, h2⟩ := hm
    simp only [numVectors, hidx] at h1
    omega
  have hpe := searchPairs_eq mem idx q k hidx hlen
  have htoplen : ((rankSlots idx.vectors (normalizeL2 q)).take k).length
      = min k idx.vectors.length := by
    rw [List.length_take, rankSlots_length]
  have htopmem : ∀ i ∈ (rankSlots idx.vectors (normalizeL2 q)).take k,
      i < idx.vectors.length := fun i hi =>
    (rankSlots_mem _ _ i).mp (List.take_subset k _ hi)
  have hfst : (searchPairs mem q k).map Prod.fst
      = (rankSlots idx.vectors (normalizeL2 q)).take k := by
    rw [hpe, List.map_map]
    have hcomp : (Prod.fst ∘ fun i => (i, slotDist idx.vectors (normalizeL2 q) i))
        = id := rfl
    rw [hcomp, List.map_id]
  have hplen : (searchPairs mem q k).length = min k idx.vectors.length := by
    rw [hpe, List.length_map, htoplen]
  have hsearch1 : (search mem q (some k)).1.length = min k idx.vectors.length := by
    by_cases hz : idx.vectors.length = 0
    · simp only [search, hidx, if_pos hz]
      simp [hz]
    · simp only [search, hidx, if_neg hz]
      simp only [Option.getD_some, List.length_map]
      exact hplen
  have hsearch2 : (search mem q (some k)).2.length = min k idx.vectors.length := by
    by_cases hz : idx.vectors.length = 0
    · simp only [search, hidx, if_pos hz]
      simp [hz]
    · simp only [search, hidx, if_neg hz]
      simp only [Option.getD_some, List.length_map]
      exact hplen
  refine ⟨hplen, hsearch1, hsearch2, ?_, ?_, ?_, ?_, ?_, rfl⟩
  · intro p hp
    rw [hpe] at hp
    obtain ⟨i, hi, hip⟩ := List.mem_map.mp hp
    cases hip
    exact ⟨htopmem i hi, rfl⟩
  · rw [hfst]
    exact List.Nodup.sublist (List.take_sublist k _) (rankSlots_nodup _ _)
  · rw [hpe]
    rw [List.pairwise_map]
    refine ((rankSlots_sorted idx.vectors (normalizeL2 q)).take).imp ?_
    intro i j hij
    simp only [slotLE, decide_eq_true_eq] at hij
    dsimp only
    rcases hij with h | ⟨h, h'⟩
    · exact ⟨le_of_lt h, by linarith, fun heq => absurd (heq ▸ h) (lt_irrefl _)⟩
    · exact ⟨le_of_eq h, by simp [h], fun _ => h'⟩
  · intro p hp j hj hnj
    have hpin : p.1 ∈ (rankSlots idx.vectors (normalizeL2 q)).take k := by
      rw [← hfst]
      exact List.mem_map_of_mem Prod.fst hp
    rw [hfst] at hnj
    have hjr : j ∈ rankSlots idx.vectors (normalizeL2 q) :=
      (rankSlots_mem _ _ j).mpr hj
    have hsplit := (List.take_append_drop k
      (rankSlots idx.vectors (normalizeL2 q))).symm
    have hjd : j ∈ (rankSlots idx.vectors (normalizeL2 q)).drop k := by
      rcases List.mem_append.mp (hsplit ▸ hjr) with h | h
      · exact absurd h hnj
      · exact h
    have hsorted := rankSlots_sorted idx.vectors (normalizeL2 q)
    rw [hsplit] at hsorted
    have := (List.pairwise_append.mp hsorted).2.2 p.1 hpin j hjd
    simp only [slotLE, decide_eq_true_eq] at this
    rcases this with h | ⟨h, _⟩
    · exact le_of_lt h
    · exact le_of_eq h
  · intro hkn
    rw [hfst, List.take_of_length_le (by rw [rankSlots_length]; exact hkn)]
    exact rankSlots_perm _ _

/-- Witness for C3 at a concrete two-slot store and query. -/
theorem C3_search_ranking_witness :
    Inv ⟨some ⟨2, [[(1 : ℝ), 0], [0, 1]]⟩, [defaultRecord, defaultRecord], ["a", "b"]⟩ ∧
    (searchPairs ⟨some ⟨2, [[(1 : ℝ), 0], [0, 1]]⟩,
        [defaultRecord, defaultRecord], ["a", "b"]⟩ [(1 : ℝ), 0] 5).length
      = min 5 2 := by
  refine ⟨⟨rfl, rfl⟩, ?_⟩
  exact (C3_search_ranking
    ⟨some ⟨2, [[(1 : ℝ), 0], [0, 1]]⟩, [defaultRecord, defaultRecord], ["a", "b"]⟩
    ⟨2, [[(1 : ℝ), 0], [0, 1]]⟩ [(1 : ℝ), 0] 5 ⟨rfl, rfl⟩ rfl (by decide)).1

/-! Similarity score algebra. -/

theorem sqNorm_nonneg (v : List ℝ) : 0 ≤ sqNorm v := by
  induction v with
  | nil => simp [sqNorm, dot]
  | cons a v ih =>
    simp only [sqNorm, dot, List.zipWith_cons_cons, List.sum_cons] at ih ⊢
    nlinarith [sq_nonneg a]

/-- Cauchy-Schwarz for componentwise products of real lists. -/
theorem dot_sq_le (u v : List ℝ) : dot u v ^ 2 ≤ sqNorm u * sqNorm v := by
  induction u generalizing v with
  | nil => simp [dot, sqNorm]
  | cons a u ih =>
    cases v with
    | nil =>
      simp only [dot, sqNorm, List.zipWith_nil_right, List.sum_nil]
      nlinarith [sqNorm_nonneg (a :: u), sqNorm_nonneg ([] : List ℝ)]
    | cons b v =>
      have h1 := ih v
      have hF := sqNorm_nonneg u
      have hG := sqNorm_nonneg v
      simp only [dot, sqNorm, List.zipWith_cons_cons, List.sum_cons] at h1 hF hG ⊢
      rcases lt_or_eq_of_le hG with hG' | hG'
      · nlinarith [sq_nonneg (a * (List.zipWith (fun a b => a * b) v v).sum
            - b * (List.zipWith (fun a b => a * b) u v).sum),
          mul_nonneg (sq_nonneg b)
            (sub_nonneg.mpr h1),
          mul_nonneg hG (sub_nonneg.mpr h1)]
      · have h2 : ((List.zipWith (fun a b => a * b) u v).sum) ^ 2 = 0 := by
          nlinarith [sq_nonneg ((List.zipWith (fun a b => a * b) u v).sum)]
        have hS : (List.zipWith (fun a b => a * b) u v).sum = 0 :=
          pow_eq_zero_iff two_ne_zero |>.mp h2
        rw [hS]
        nlinarith [mul_nonneg hF (sq_nonneg b), sq_nonneg (a * b)]

/-- On equal-length lists, squared L2 distance expands through the dot
product. -/
theorem sqDist_eq (u v : List ℝ) (h : u.length = v.length) :
    sqDist u v = sqNorm u + sqNorm v - 2 * dot u v := by
  induction u generalizing v with
  | nil =>
    have : v = [] := by
      cases v
      · rfl
      · simp at h
    subst this
    simp [sqDist, sqNorm, dot]
  | cons a u ih =>
    cases v with
    | nil => simp at h
    | cons b v =>
      have h' : u.length = v.length := by simpa using h
      have hIH := ih v h'
      simp only [sqDist, sqNorm, dot, List.zipWith_cons_cons, List.sum_cons] at hIH ⊢
      have hab : (a - b) ^ 2 = a * a - 2 * (a * b) + b * b := by ring
      linarith [hIH, hab]

theorem dot_map_neg (u : List ℝ) : dot u (u.map (fun x => -x)) = -sqNorm u := by
  induction u with
  | nil => simp [dot, sqNorm]
  | cons a u ih =>
    simp only [dot, sqNorm, List.map_cons, List.zipWith_cons_cons,
      List.sum_cons] at ih ⊢
    have hne : a * -a = -(a * a) := by ring
    linarith [ih, hne]

theorem sqDist_self (v : List ℝ) : sqDist v v = 0 := by
  induction v with
  | nil => simp [sqDist]
  | cons a v ih =>
    simp only [sqDist] at ih
    simp [sqDist, List.zipWith_cons_cons, ih]

/-- C4: every returned record carries `similarity = 1 - distance / 2` where
`distance` is the raw squared-L2 score; and for unit-normalized vectors this
score equals the dot product, hence lies in `[-1, 1]`, with identical
vectors scoring 1 (distance 0), opposite vectors -1 (distance 4), and
orthogonal vectors 0 (distance 2). -/
theorem C4_similarity_conversion (mem : Mem) (q : List ℝ) (topK : Option Nat)
    (u v : List ℝ) (hlen : u.length = v.length)
    (hu : sqNorm u = 1) (hv : sqNorm v = 1) :
    (∀ m ∈ (search mem q topK).2, m.similarity = 1 - m.distance / 2) ∧
    1 - sqDist u v / 2 = dot u v ∧
    (-1 ≤ 1 - sqDist u v / 2 ∧ 1 - sqDist u v / 2 ≤ 1) ∧
    (u = v → sqDist u v = 0 ∧ 1 - sqDist u v / 2 = 1) ∧
    (v = u.map (fun x => -x) → sqDist u v = 4 ∧ 1 - sqDist u v / 2 = -1) ∧
    (dot u v = 0 → sqDist u v = 2 ∧ 1 - sqDist u v / 2 = 0) := by
  have hd := sqDist_eq u v hlen
  have hdot : 1 - sqDist u v / 2 = dot u v := by
    rw [hd, hu, hv]; ring
  have hcs := dot_sq_le u v
  rw [hu, hv] at hcs
  refine ⟨?_, hdot, ⟨?_, ?_⟩, ?_, ?_, ?_⟩
  · intro m hmem
    cases hidx : mem.index with
    | none =>
      simp only [search, hidx] at hmem
      simp at hmem
    | some idx =>
      by_cases hz : idx.vectors.length = 0
      · simp only [search, hidx, if_pos hz] at hmem
        simp at hmem
      · simp only [search, hidx, if_neg hz] at hmem
        obtain ⟨p, _, rfl⟩ := List.mem_map.mp hmem
        rfl
  · rw [hdot]; nlinarith [sq_nonneg (dot u v + 1)]
  · rw [hdot]; nlinarith [sq_nonneg (dot u v - 1)]
  · intro heq
    subst heq
    rw [sqDist_self]
    norm_num
  · intro heq
    subst heq
    have hneg := dot_map_neg u
    rw [hd, hu, hv, hneg, hu]
    norm_num
  · intro horth
    rw [hd, hu, hv, horth]
    norm_num

/-- Witness for C4 on two concrete orthogonal unit vectors. -/
theorem C4_similarity_conversion_witness :
    ([(1 : ℝ), 0].length = [(0 : ℝ), 1].length ∧
     sqNorm [(1 : ℝ), 0] = 1 ∧ sqNorm [(0 : ℝ), 1] = 1) ∧
    1 - sqDist [(1 : ℝ), 0] [(0 : ℝ), 1] / 2 = dot [(1 : ℝ), 0] [(0 : ℝ), 1] := by
  have h1 : sqNorm [(1 : ℝ), 0] = 1 := by
    simp [sqNorm, dot]
  have h2 : sqNorm [(0 : ℝ), 1] = 1 := by
    simp [sqNorm, dot]
  exact ⟨⟨rfl, h1, h2⟩,
    (C4_similarity_conversion emptyMem [] none [(1 : ℝ), 0] [(0 : ℝ), 1]
      rfl h1 h2).2.1⟩

/-! Markdown chunking: dictionary lemmas. -/

/-- Last-assignment-wins lookup (Python dict semantics for repeated keys). -/
def lookupLastMV? (m : List (String × MVal)) (k : String) : Option MVal :=
  (m.reverse.find? (fun p => p.1 == k)).map Prod.snd

/-- The key-value pairs of the front-matter block found in a chunk, if any. -/
def fmPairs (text : String) : List (String × MVal) :=
  match findFrontmatter text.data with
  | none => []
  | some g => parseFMLines g

theorem find?_filter_ne (m : List (String × MVal)) (k k' : String) (hne : k ≠ k') :
    (m.filter (fun p => p.1 != k')).find? (fun p => p.1 == k)
      = m.find? (fun p => p.1 == k) := by
  induction m with
  | nil => rfl
  | cons p t ih =>
    by_cases hp : p.1 = k'
    · have h1 : (p.1 != k') = false := by simp [hp]
      have h2 : (p.1 == k) = false := by simp [hp]; exact fun h => hne h.symm
      simp [List.filter_cons, h1, List.find?_cons, h2, ih]
    · have h1 : (p.1 != k') = true := by simp [hp]
      by_cases hpk : p.1 = k
      · simp [List.filter_cons, h1, List.find?_cons, hpk, hne]
      · have h2 : (p.1 == k) = false := by simp [hpk]
        simp [List.filter_cons, h1, List.find?_cons, h2, ih]

theorem lookupMV?_dictInsert (m : List (String × MVal)) (k' : String) (v : MVal)
    (k : String) :
    lookupMV? (dictInsert m k' v) k = if k = k' then some v else lookupMV? m k := by
  by_cases hkk : k = k'
  · subst hkk
    simp only [lookupMV?, dictInsert, List.find?_append]
    have hnone : (m.filter (fun p => p.1 != k)).find? (fun p => p.1 == k) = none := by
      rw [List.find?_eq_none]
      intro x hx
      have hx' := List.of_mem_filter hx
      simpa using hx'
    rw [hnone]
    simp
  · rw [if_neg hkk]
    simp only [lookupMV?, dictInsert, List.find?_append, find?_filter_ne m k k' hkk]
    have h2 : ([(k', v)].find? (fun p => p.1 == k)) = none := by
      have : (k' == k) = false := by simp; exact fun h => hkk h.symm
      simp [List.find?_cons, this]
    rw [h2, Option.or_none]

theorem lookupLastMV?_dictInsert (m : List (String × MVal)) (k' : String)
    (v : MVal) (k : String) :
    lookupLastMV? (dictInsert m k' v) k
      = if k = k' then some v else lookupLastMV? m k := by
  simp only [lookupLastMV?, dictInsert, List.reverse_append, List.reverse_cons,
    List.reverse_nil, List.nil_append]
  by_cases hkk : k = k'
  · subst hkk
    simp [List.find?_cons]
  · have h1 : (k' == k) = false := by simp; exact fun h => hkk h.symm
    rw [if_neg hkk]
    simp only [List.cons_append, List.nil_append, List.find?_cons, h1]
    rw [← List.filter_reverse, find?_filter_ne m.reverse k k' hkk]

theorem lookupMV?_metaUpdate (old upd : List (String × MVal)) (k : String) :
    lookupMV? (metaUpdate old upd) k
      = (lookupLastMV? upd k).or (lookupMV? old k) := by
  induction upd generalizing old with
  | nil => simp [metaUpdate, lookupLastMV?]
  | cons p rest ih =>
    have hstep : metaUpdate old (p :: rest) = metaUpdate (dictInsert old p.1 p.2) rest := rfl
    rw [hstep, ih, lookupMV?_dictInsert]
    simp only [lookupLastMV?, List.reverse_cons, List.find?_append]
    cases hfind : rest.reverse.find? (fun q => q.1 == k) with
    | some x => simp [Option.or_some]
    | none =>
      simp only [Option.none_or]
      by_cases hkk : k = p.1
      · have h1 : (p.1 == k) = true := by simp [hkk]
        simp [List.find?_cons, h1, if_pos hkk]
      · have h1 : (p.1 == k) = false := by simp; exact fun h => hkk h.symm
        simp [List.find?_cons, h1, if_neg hkk, lookupLastMV?]

theorem lookupLastMV?_metaUpdate (old upd : List (String × MVal)) (k : String) :
    lookupLastMV? (metaUpdate old upd) k
      = (lookupLastMV? upd k).or (lookupLastMV? old k) := by
  induction upd generalizing old with
  | nil => simp [metaUpdate, lookupLastMV?]
  | cons p rest ih =>
    have hstep : metaUpdate old (p :: rest) = metaUpdate (dictInsert old p.1 p.2) rest := rfl
    rw [hstep, ih, lookupLastMV?_dictInsert]
    simp only [lookupLastMV?, List.reverse_cons, List.find?_append]
    cases hfind : rest.reverse.find? (fun q => q.1 == k) with
    | some x => simp [Option.or_some]
    | none =>
      simp only [Option.none_or]
      by_cases hkk : k = p.1
      · have h1 : (p.1 == k) = true := by simp [hkk]
        simp [List.find?_cons, h1, if_pos hkk]
      · have h1 : (p.1 == k) = false := by simp; exact fun h => hkk h.symm
        simp [List.find?_cons, h1, if_neg hkk, lookupLastMV?]

/-- When a chunk has an h1 line and its front-matter block (if any) binds no
`title` key, the extractor's `title` is the stripped h1 text. -/
theorem extract_title_of_h1 (c : String) (t : List Char)
    (h1 : extractH1 c.data = some t)
    (hfm : ∀ p ∈ fmPairs c, p.1 ≠ "title") :
    lookupLastMV? (extract_markdown_headers c) "title" = some (.s t.asString) := by
  have hv : lookupLastMV? (dictInsert [] "title" (.s t.asString)) "title"
      = some (.s t.asString) := rfl
  have hsec : ∀ vs, lookupLastMV?
      (dictInsert (dictInsert [] "title" (.s t.asString)) "sections" vs) "title"
      = some (.s t.asString) := by
    intro vs
    rw [lookupLastMV?_dictInsert, if_neg (by decide)]
    exact hv
  have hfinal : ∀ h1' : List (String × MVal),
      lookupLastMV? h1' "title" = some (.s t.asString) →
      lookupLastMV?
        (match findFrontmatter c.data with
         | none => h1'
         | some grp => metaUpdate h1' (parseFMLines grp)) "title"
        = some (.s t.asString) := by
    intro h1' hh
    cases hfmm : findFrontmatter c.data with
    | none => exact hh
    | some g =>
      rw [lookupLastMV?_metaUpdate]
      have hnone : lookupLastMV? (parseFMLines g) "title" = none := by
        have hfm' : ∀ p ∈ (parseFMLines g).reverse, ¬ ((p.1 == "title") = true) := by
          intro p hp
          have hp' : p ∈ fmPairs c := by
            simp only [fmPairs, hfmm]
            exact List.mem_reverse.mp hp
          simpa using hfm p hp'
        simp only [lookupLastMV?]
        rw [List.find?_eq_none.mpr hfm']
        rfl
      rw [hnone, Option.none_or]
      exact hh
  simp only [extract_markdown_headers, h1]
  cases hh2 : extractH2s c.data with
  | nil => exact hfinal _ hv
  | cons m ms => exact hfinal _ (hsec _)

/-- C7 counterexample: the front-matter extraction is not restricted to a
leading block.  In this chunk the `---` pair sits after an introduction, so
under the claim's wording ("leading key-value front-matter block") nothing
would be extracted — the reading made precise by `claimLeadingFrontmatter`,
which returns `none` here — yet `extract_markdown_headers` (the embedding of
`re.search(r'---\n(.*?)\n---', text, re.DOTALL)`) extracts `author: Bob`. -/
theorem C7_counterexample :
    lookupMV? (extract_markdown_headers "Intro\n---\nauthor: Bob\n---\nMore") "author"
      = some (.s "Bob") ∧
    claimLeadingFrontmatter "Intro\n---\nauthor: Bob\n---\nMore" = none := by
  exact ⟨by decide, by decide⟩

/-- C7 amended: for markdown documents the splitter is invoked with the
heading markers as the highest-priority separators (followed by exactly the
default separators); each chunk's metadata is the document metadata updated
with the base metadata, the chunk index, and the values extracted from that
chunk's raw text — the first h1 line as `title`, the h2 lines as `sections`,
and the key-value lines of the first `---`-delimited block found anywhere in
the chunk (not only a leading front-matter block) — and every extracted key
overwrites a same-named key of the base metadata; in particular an h1
heading found in a chunk becomes the chunk's `title` (unless the block also
binds `title`, which then wins, being applied after the h1). -/
theorem C7_markdown_chunking (split : List String → String → List String)
    (docMeta base : List (String × MVal)) (text : String) :
    mdSeparators.take 3 = ["\n## ", "\n### ", "\n#### "] ∧
    mdSeparators.drop 3 = defaultSeparators ∧
    (processFileMd split docMeta base text).map Prod.fst = split mdSeparators text ∧
    (∀ i c meta, (processFileMd split docMeta base text).get? i = some (c, meta) →
      (∀ k, lookupMV? meta k
        = (lookupLastMV? (extract_markdown_headers c) k).or
            (lookupMV? (dictInsert (metaUpdate docMeta base) "chunk_index"
              (.n i)) k)) ∧
      (∀ t, extractH1 c.data = some t → (∀ p ∈ fmPairs c, p.1 ≠ "title") →
        lookupMV? meta "title" = some (.s t.asString))) := by
  refine ⟨rfl, rfl, ?_, ?_⟩
  · simp only [processFileMd, List.map_map]
    have hcomp : (Prod.fst ∘ fun p : Nat × String =>
        (p.2, metaUpdate (dictInsert (metaUpdate docMeta base) "chunk_index"
          (.n p.1)) (extract_markdown_headers p.2))) = Prod.snd := rfl
    rw [hcomp, List.enum_map_snd]
  · intro i c meta hget
    simp only [processFileMd, List.get?_map, List.get?_enum] at hget
    cases hc : (split mdSeparators text).get? i with
    | none => rw [hc] at hget; simp at hget
    | some c' =>
      rw [hc] at hget
      simp only [Option.map_some', Option.some.injEq, Prod.mk.injEq] at hget
      obtain ⟨hcc, hmeta⟩ := hget
      subst hcc
      constructor
      · intro k
        rw [← hmeta, lookupMV?_metaUpdate]
      · intro t h1 hfm
        rw [← hmeta, lookupMV?_metaUpdate, extract_title_of_h1 _ t h1 hfm,
          Option.or_some]

/-- Witness for the amended C7: with a one-chunk splitter, a chunk whose
text carries an h1 heading gets that heading as its `title`, overriding the
base metadata's `title`. -/
theorem C7_markdown_chunking_witness :
    (processFileMd (fun _ t => [t]) [] [("title", MVal.s "Base")]
        "# Hello \nbody").get? 0
      = some ("# Hello \nbody",
          metaUpdate (dictInsert (metaUpdate [] [("title", MVal.s "Base")])
            "chunk_index" (.n 0))
            (extract_markdown_headers "# Hello \nbody")) ∧
    lookupMV?
        (metaUpdate (dictInsert (metaUpdate [] [("title", MVal.s "Base")])
          "chunk_index" (.n 0)) (extract_markdown_headers "# Hello \nbody"))
        "title"
      = some (.s "Hello") := by
  refine ⟨rfl, ?_⟩
  exact ((C7_markdown_chunking (fun _ t => [t]) [] [("title", MVal.s "Base")]
    "# Hello \nbody").2.2.2 0 "# Hello \nbody" _ rfl).2 ("Hello".data) (by decide)
    (by decide)

end CollegeRag
